import Mathlib

/-!
# MFRC522 register access and Transceive sequencing

A shallow embedding of `src/rc522_mifare.c`.

* The file descriptor `dev->fd` is an abstract bus: a state type `σ` with the
  two system calls the driver uses, `write(fd, buf, n)` and `read(fd, buf, 1)`.
* Every system call the driver makes is appended to a log, so that statements
  about "what crosses the wire" are statements about that log.
* `uint8_t` values are natural numbers reduced `% 256` wherever the C code
  stores into a `uint8_t`; `int` results are `Int`; `size_t`/`ssize_t` are 64 bit.
* `constants.h` is not part of the sources: the register map, the bit masks and
  the three function-like macros are the fields of `Constants`.
* The `do … while` poll loop of `rc522_transceive` has no bound in the source;
  it is embedded with a fuel argument that counts polls.
* `printf` output is not modelled.
-/

namespace RC522

/-! ## The bus -/

/-- One system call on the bus file descriptor, as seen on the wire:
`wr bytes` is `write(fd, buf, bytes.length)` with that buffer content,
`rd got` is `read(fd, buf, 1)` that left `got` in `buf[0]`. -/
inductive BusEvent where
  | wr (bytes : List Nat)
  | rd (got : Nat)
  deriving DecidableEq, Repr

/-- The payloads of the `write` calls of a log, in order. -/
def payloads : List BusEvent → List (List Nat)
  | [] => []
  | BusEvent.wr bytes :: es => bytes :: payloads es
  | BusEvent.rd _ :: es => payloads es

/-- The transport behind the file descriptor. `write s bytes` gives the return
value of `write(2)` and the next state; `read s` gives the return value of
`read(2)`, the byte it stored into the one-byte buffer (`none` when it stored
nothing) and the next state. -/
structure Bus (σ : Type) where
  write : σ → List Nat → Int × σ
  read : σ → Int × Option Nat × σ

/-- The bus state together with the log of the calls made so far. -/
structure World (σ : Type) where
  st : σ
  log : List BusEvent

/-- The call `write(dev->fd, buf, n)`. -/
def sys_write {σ : Type} (bus : Bus σ) (bytes : List Nat) (w : World σ) : Int × World σ :=
  ((bus.write w.st bytes).1, ⟨(bus.write w.st bytes).2, w.log ++ [BusEvent.wr bytes]⟩)

/-- The call `read(dev->fd, buf, 1)` on a buffer holding `buf0`: return value, new `buf[0]`, world. -/
def sys_read {σ : Type} (bus : Bus σ) (buf0 : Nat) (w : World σ) : Int × Nat × World σ :=
  let got : Nat := match (bus.read w.st).2.1 with
    | some b => b % 256
    | none => buf0
  ((bus.read w.st).1, got, ⟨(bus.read w.st).2.2, w.log ++ [BusEvent.rd got]⟩)

/-! ## Integer conversions -/

/-- Conversion of an `int` to `uint8_t`. -/
def toU8 (x : Int) : Nat := (x % 256).toNat

/-- Conversion of an `int` to `size_t` (64 bit). -/
def toSize (x : Int) : Nat := (x % (2 ^ 64 : Int)).toNat

/-- Conversion of a `size_t` to `ssize_t` (64 bit, two's complement). -/
def toSSize (n : Nat) : Int :=
  if n % 2 ^ 64 < 2 ^ 63 then ((n % 2 ^ 64 : Nat) : Int) else ((n % 2 ^ 64 : Nat) : Int) - 2 ^ 64

/-! ## Register accessors (`rc522_mifare.c`, lines 137–161) -/

/-- Embedding of `static int read_reg(rc522_dev *dev, uint8_t reg)`. -/
def read_reg {σ : Type} (bus : Bus σ) (reg : Nat) (w : World σ) : Int × World σ :=
  let buf0 := ((reg <<< 1) ||| 0x80) % 256
  let r1 := sys_write bus [buf0] w
  if r1.1 < 0 then (-1, r1.2)
  else
    let r2 := sys_read bus buf0 r1.2
    if r2.1 < 0 then (-1, r2.2.2)
    else ((r2.2.1 : Int), r2.2.2)

/-- Embedding of `static int write_reg(rc522_dev *dev, uint8_t reg, uint8_t val)`. -/
def write_reg {σ : Type} (bus : Bus σ) (reg val : Nat) (w : World σ) : Int × World σ :=
  let r := sys_write bus [(reg <<< 1) % 256, val % 256] w
  if r.1 < 0 then (-1, r.2) else (0, r.2)

/-- Embedding of `static int set_bits(rc522_dev *dev, uint8_t reg, uint8_t mask)`: the body is
`write_reg(dev, reg, read_reg(dev, reg) | mask)` and has no `return`; the only
caller discards the value, so only the world is produced. -/
def set_bits {σ : Type} (bus : Bus σ) (reg mask : Nat) (w : World σ) : World σ :=
  let r := read_reg bus reg w
  (write_reg bus reg (toU8 (Int.lor r.1 ((mask % 256 : Nat) : Int))) r.2).2

/-! ## Constants (`constants.h`, not among the sources) -/

/-- Modelled from the spec: the named constants and function-like macros of the
absent `constants.h` that `rc522_mifare.c` uses (register addresses, command
codes, bit masks). The spec fixes their names and roles but not their values, so
they are parameters of every definition that uses them. -/
structure Constants where
  CommandReg : Nat
  ComIrqReg : Nat
  FIFODataReg : Nat
  FIFOLevelReg : Nat
  BitFramingReg : Nat
  ModeReg : Nat
  TxControlReg : Nat
  TxASKReg : Nat
  TModeReg : Nat
  TPrescalerReg : Nat
  TReloadRegH : Nat
  TReloadRegL : Nat
  PCD_SoftReset : Nat
  PCD_Transceive : Nat
  TModeReg_TAuto : Nat
  TModeReg_TPrescaler_Hi : Nat → Nat
  TPrescalerReg_TPrescaler_Lo : Nat → Nat
  TxASKReg_Force100ASK : Nat
  TxControlReg_Tx1RFEn : Nat
  TxControlReg_Tx2RFEn : Nat
  FIFOLevelReg_FlushBuffer : Nat
  ComIrqReg_RxIRq : Nat
  BitFramingReg_StartSend : Nat
  BitFramingReg_TxLastBits : Nat → Nat

/-- The constants describe a register map: register addresses are 6-bit values
(spec, "Register Address"); command codes, masks and the macro results the
driver writes (prescaler 0xd3e, bit counts 0–7) are 8-bit register values; the
three registers the receive path reads are distinct; the receive-complete and
start-send masks are not empty. -/
structure Constants.WellFormed (c : Constants) : Prop where
  CommandReg_le : c.CommandReg ≤ 63
  ComIrqReg_le : c.ComIrqReg ≤ 63
  FIFODataReg_le : c.FIFODataReg ≤ 63
  FIFOLevelReg_le : c.FIFOLevelReg ≤ 63
  BitFramingReg_le : c.BitFramingReg ≤ 63
  ModeReg_le : c.ModeReg ≤ 63
  TxControlReg_le : c.TxControlReg ≤ 63
  TxASKReg_le : c.TxASKReg ≤ 63
  TModeReg_le : c.TModeReg ≤ 63
  TPrescalerReg_le : c.TPrescalerReg ≤ 63
  TReloadRegH_le : c.TReloadRegH ≤ 63
  TReloadRegL_le : c.TReloadRegL ≤ 63
  PCD_SoftReset_lt : c.PCD_SoftReset < 256
  PCD_Transceive_lt : c.PCD_Transceive < 256
  TAuto_lt : c.TModeReg_TAuto < 256
  TPrescaler_Hi_lt : c.TModeReg_TPrescaler_Hi 0xd3e < 256
  TPrescaler_Lo_lt : c.TPrescalerReg_TPrescaler_Lo 0xd3e < 256
  Force100ASK_lt : c.TxASKReg_Force100ASK < 256
  Tx1RFEn_lt : c.TxControlReg_Tx1RFEn < 256
  Tx2RFEn_lt : c.TxControlReg_Tx2RFEn < 256
  FlushBuffer_lt : c.FIFOLevelReg_FlushBuffer < 256
  RxIRq_lt : c.ComIrqReg_RxIRq < 256
  RxIRq_ne : c.ComIrqReg_RxIRq ≠ 0
  StartSend_lt : c.BitFramingReg_StartSend < 256
  StartSend_ne : c.BitFramingReg_StartSend ≠ 0
  TxLastBits_lt : ∀ x, x ≤ 7 → c.BitFramingReg_TxLastBits x < 256
  ComIrq_ne_FIFOLevel : c.ComIrqReg ≠ c.FIFOLevelReg
  ComIrq_ne_FIFOData : c.ComIrqReg ≠ c.FIFODataReg
  FIFOLevel_ne_FIFOData : c.FIFOLevelReg ≠ c.FIFODataReg

/-- A sample table of constants, with the values of the MFRC522 register
reference: used wherever a statement is evaluated on concrete numbers. -/
def mfrc522 : Constants where
  CommandReg := 0x01
  ComIrqReg := 0x04
  FIFODataReg := 0x09
  FIFOLevelReg := 0x0a
  BitFramingReg := 0x0d
  ModeReg := 0x11
  TxControlReg := 0x14
  TxASKReg := 0x15
  TModeReg := 0x2a
  TPrescalerReg := 0x2b
  TReloadRegH := 0x2c
  TReloadRegL := 0x2d
  PCD_SoftReset := 0x0f
  PCD_Transceive := 0x0c
  TModeReg_TAuto := 0x80
  TModeReg_TPrescaler_Hi := fun x => (x >>> 8) &&& 0x0f
  TPrescalerReg_TPrescaler_Lo := fun x => x &&& 0xff
  TxASKReg_Force100ASK := 0x40
  TxControlReg_Tx1RFEn := 0x01
  TxControlReg_Tx2RFEn := 0x02
  FIFOLevelReg_FlushBuffer := 0x80
  ComIrqReg_RxIRq := 0x20
  BitFramingReg_StartSend := 0x80
  BitFramingReg_TxLastBits := fun x => x &&& 0x07

/-! ## `rc522_init` (lines 32–71) -/

/-- Embedding of `int rc522_init(rc522_dev *dev)`: the return value of every accessor call is
discarded and the function returns 0. -/
def rc522_init {σ : Type} (bus : Bus σ) (c : Constants) (w : World σ) : Int × World σ :=
  let w := (write_reg bus c.CommandReg c.PCD_SoftReset w).2
  let prescaler := 0xd3e
  let w := (write_reg bus c.TModeReg (c.TModeReg_TAuto ||| c.TModeReg_TPrescaler_Hi prescaler) w).2
  let w := (write_reg bus c.TPrescalerReg (c.TPrescalerReg_TPrescaler_Lo prescaler) w).2
  let w := (write_reg bus c.TReloadRegL 0x1e w).2
  let w := (write_reg bus c.TReloadRegH 0x00 w).2
  let w := (write_reg bus c.TxASKReg c.TxASKReg_Force100ASK w).2
  let w := (write_reg bus c.ModeReg 0x3d w).2
  let w := set_bits bus c.TxControlReg (c.TxControlReg_Tx1RFEn ||| c.TxControlReg_Tx2RFEn) w
  (0, w)

/-! ## `rc522_transceive` (lines 73–132) -/

/-- How a call of `rc522_transceive` ends. `stores` lists the assignments
`output[i] = v` the call made, as pairs `(i, v)` in program order. -/
inductive Outcome (σ : Type) where
  /-- The check `assert(tx_last_bits <= 7)` failed: the process is aborted. -/
  | aborted (w : World σ)
  /-- The statement `return num_bytes;` was reached. -/
  | returned (ret : Int) (stores : List (Nat × Nat)) (w : World σ)
  /-- The poll loop is still running after the given number of polls. -/
  | running (w : World σ)

/-- The world an outcome was reached in. -/
def Outcome.world {σ : Type} : Outcome σ → World σ
  | Outcome.aborted w => w
  | Outcome.returned _ _ w => w
  | Outcome.running w => w

/-- The loop `for(i = 0; i < input_len; i++) write_reg(dev, FIFODataReg, input[i]);`
over the remaining bytes of the frame. -/
def loadFifo {σ : Type} (bus : Bus σ) (c : Constants) : List Nat → World σ → World σ
  | [], w => w
  | b :: rest, w => loadFifo bus c rest (write_reg bus c.FIFODataReg b w).2

/-- The loop `do { interrupts = read_reg(dev, ComIrqReg); } while(!(interrupts & ComIrqReg_RxIRq));`
run for at most `fuel` polls: `true` when the loop was left, `false` when it is
still running after `fuel` polls. -/
def pollLoop {σ : Type} (bus : Bus σ) (c : Constants) : Nat → World σ → Bool × World σ
  | 0, w => (false, w)
  | fuel + 1, w =>
    let r := read_reg bus c.ComIrqReg w
    let interrupts := toU8 r.1
    if interrupts &&& c.ComIrqReg_RxIRq ≠ 0 then (true, r.2)
    else pollLoop bus c fuel r.2

/-- The loop `for(i = 0; i < num_bytes; i++) output[i] = read_reg(dev, FIFODataReg);`
with `remaining = num_bytes - i` iterations left: the stores made and the world. -/
def drain {σ : Type} (bus : Bus σ) (c : Constants) :
    Nat → Nat → World σ → List (Nat × Nat) × World σ
  | 0, _, w => ([], w)
  | remaining + 1, i, w =>
    let r := read_reg bus c.FIFODataReg w
    let rest := drain bus c remaining (i + 1) r.2
    ((i, toU8 r.1) :: rest.1, rest.2)

/-- Embedding of `ssize_t rc522_transceive(dev, input, input_len, tx_last_bits, output, output_len)`
with `input_len = input.length`, built with assertions enabled (no `NDEBUG`). -/
def rc522_transceive {σ : Type} (bus : Bus σ) (c : Constants) (fuel : Nat)
    (input : List Nat) (tx_last_bits : Nat) (output_len : Nat) (w : World σ) : Outcome σ :=
  if ¬ tx_last_bits ≤ 7 then Outcome.aborted w
  else
    let w := (write_reg bus c.FIFOLevelReg c.FIFOLevelReg_FlushBuffer w).2
    let w := loadFifo bus c input w
    let w := (write_reg bus c.ComIrqReg 0x00 w).2
    let w := (write_reg bus c.CommandReg c.PCD_Transceive w).2
    let w := (write_reg bus c.BitFramingReg
      (c.BitFramingReg_StartSend ||| c.BitFramingReg_TxLastBits tx_last_bits) w).2
    let p := pollLoop bus c fuel w
    if p.1 = false then Outcome.running p.2
    else
      let r := read_reg bus c.FIFOLevelReg p.2
      let num_bytes := toSize r.1
      let num_bytes := if num_bytes > output_len then output_len else num_bytes
      let d := drain bus c num_bytes 0 r.2
      Outcome.returned (toSSize num_bytes) d.1 d.2

/-- The value `rc522_transceive` returned, if it returned. -/
def Outcome.result {σ : Type} : Outcome σ → Option Int
  | Outcome.returned ret _ _ => some ret
  | _ => none

/-- The assignments to `output[]` made by the call. -/
def Outcome.stores {σ : Type} : Outcome σ → List (Nat × Nat)
  | Outcome.returned _ stores _ => stores
  | _ => []

/-- The world `rc522_transceive` is in when it enters the poll loop: the five
write statements of lines 88–111 composed. -/
def afterSend {σ : Type} (bus : Bus σ) (c : Constants) (input : List Nat) (tx_last_bits : Nat)
    (w : World σ) : World σ :=
  (write_reg bus c.BitFramingReg
    (c.BitFramingReg_StartSend ||| c.BitFramingReg_TxLastBits tx_last_bits)
    (write_reg bus c.CommandReg c.PCD_Transceive
      (write_reg bus c.ComIrqReg 0x00
        (loadFifo bus c input
          (write_reg bus c.FIFOLevelReg c.FIFOLevelReg_FlushBuffer w).2)).2).2).2

/-- The rest of `rc522_transceive` once the send phase is over (lines 113–131):
the poll loop, the read of the FIFO level, the cap by `output_len`, the drain
loop and `return num_bytes;`, run from the world `w`. The frame and its length
do not occur in it. -/
def receivePhase {σ : Type} (bus : Bus σ) (c : Constants) (fuel output_len : Nat)
    (w : World σ) : Outcome σ :=
  let p := pollLoop bus c fuel w
  if p.1 = false then Outcome.running p.2
  else
    let r := read_reg bus c.FIFOLevelReg p.2
    let num_bytes := toSize r.1
    let num_bytes := if num_bytes > output_len then output_len else num_bytes
    let d := drain bus c num_bytes 0 r.2
    Outcome.returned (toSSize num_bytes) d.1 d.2

/-- The number of bus calls in a log that are two-byte writes addressed to the
FIFO data register. -/
def fifoLoads (c : Constants) (log : List BusEvent) : Nat :=
  log.countP (fun e =>
    match e with
    | BusEvent.wr [a, _] => a == c.FIFODataReg <<< 1
    | _ => false)

/-! ## Test doubles for the bus -/

/-- State of the simulated register file: the 64 registers and the register
selected by the last read-addressing byte. -/
structure RegFile where
  regs : Nat → Nat
  sel : Nat

/-- Modelled from the spec: the simulated register file standing in for the bus.
It decodes the framing of the spec (address in bits 1–6 of the first byte,
direction flag in its most significant bit): a two-byte transfer whose first
byte has the flag clear stores the second byte in the addressed register, a
one-byte transfer with the flag set selects the addressed register, and a read
delivers the selected register. Every transfer succeeds. -/
def regFile : Bus RegFile where
  write := fun s bytes =>
    match bytes with
    | [a] => if 0x80 ≤ a then (1, { s with sel := (a >>> 1) % 64 }) else (1, s)
    | [a, v] =>
      if a < 0x80 then (2, { s with regs := Function.update s.regs ((a >>> 1) % 64) v })
      else (2, s)
    | _ => ((bytes.length : Int), s)
  read := fun s => (1, some (s.regs s.sel), s)

/-- State of the mock chip: the last read-addressing byte, the number of polls
still to be answered without the receive-complete flag once transmission was
started (`none` before the start), and the number of FIFO bytes handed out. -/
structure MockState where
  sel : Nat
  wait : Option Nat
  pos : Nat

/-- Modelled from the spec: the mock chip of the Transceive scenario. Every
transfer succeeds. Once the bit-framing register is written with the start-send
flag, the chip answers `d` further polls of the interrupt-request register with
0 and every later poll with the receive-complete flag. It reports FIFO level `n`
and hands out the FIFO bytes `b 0, b 1, …` on successive reads of the FIFO data
register. -/
def mockChip (c : Constants) (n : Nat) (b : Nat → Nat) (d : Nat) : Bus MockState where
  write := fun s bytes =>
    match bytes with
    | [a] => (1, { s with sel := a })
    | [a, v] =>
      if a = (c.BitFramingReg <<< 1) % 256 ∧ v &&& c.BitFramingReg_StartSend ≠ 0 then
        (2, { s with wait := some d })
      else (2, s)
    | _ => ((bytes.length : Int), s)
  read := fun s =>
    if s.sel = ((c.ComIrqReg <<< 1) ||| 0x80) % 256 then
      match s.wait with
      | some 0 => (1, some c.ComIrqReg_RxIRq, s)
      | some (k + 1) => (1, some 0, { s with wait := some k })
      | none => (1, some 0, s)
    else if s.sel = ((c.FIFOLevelReg <<< 1) ||| 0x80) % 256 then (1, some n, s)
    else if s.sel = ((c.FIFODataReg <<< 1) ||| 0x80) % 256 then
      (1, some (b s.pos), { s with pos := s.pos + 1 })
    else (1, some 0, s)

/-- A chip that acknowledges every transfer and answers every read with 0: it
never raises the receive-complete flag. -/
def quietChip : Bus Unit where
  write := fun s bytes => ((bytes.length : Int), s)
  read := fun s => (1, some 0, s)

/-- A bus on which every `write` and every `read` fails with -1. -/
def deadBus : Bus Unit where
  write := fun s _ => (-1, s)
  read := fun s => (-1, none, s)

/-- The mock chip with a faulty FIFO path: a write to the FIFO data register
fails with -1 and leaves the chip untouched, every other transfer is that of
`mockChip`. -/
def fifoFaultChip (c : Constants) (n : Nat) (b : Nat → Nat) (d : Nat) : Bus MockState where
  write := fun s bytes =>
    if bytes.head? = some ((c.FIFODataReg <<< 1) % 256) then (-1, s)
    else (mockChip c n b d).write s bytes
  read := (mockChip c n b d).read

/-- Every transfer on the bus succeeds: neither system call returns a negative value. -/
def AllSucceed {σ : Type} (bus : Bus σ) : Prop :=
  (∀ s bytes, 0 ≤ (bus.write s bytes).1) ∧ (∀ s, 0 ≤ (bus.read s).1)

/-! ## The framing of the spec -/

/-- Bytes on the wire for a register write, in the words of the spec:
`[ (addr<<1), value ]`. -/
def specWriteFrame (addr value : Nat) : BusEvent :=
  BusEvent.wr [addr <<< 1, value]

/-- Addressing byte on the wire for a register read, in the words of the spec:
`[ (addr<<1)|0x80 ]`. -/
def specReadFrame (addr : Nat) : BusEvent :=
  BusEvent.wr [(addr <<< 1) ||| 0x80]

/-- The writes of steps 1–4 of the Transceiver, as frames of the spec: flush the
FIFO, load the frame byte by byte, clear the interrupt requests, issue the
Transceive command, start sending with the final-byte bit count. -/
def sendWrites (c : Constants) (input : List Nat) (tx_last_bits : Nat) : List BusEvent :=
  specWriteFrame c.FIFOLevelReg c.FIFOLevelReg_FlushBuffer
    :: input.map (specWriteFrame c.FIFODataReg)
    ++ [ specWriteFrame c.ComIrqReg 0x00,
         specWriteFrame c.CommandReg c.PCD_Transceive,
         specWriteFrame c.BitFramingReg
           (c.BitFramingReg_StartSend ||| c.BitFramingReg_TxLastBits tx_last_bits) ]

/-! ## Basic facts -/

theorem payloads_append (xs ys : List BusEvent) :
    payloads (xs ++ ys) = payloads xs ++ payloads ys := by
  induction xs with
  | nil => rfl
  | cons e es ih => cases e <;> simp [payloads, ih]

theorem shl_mod_of_le {a : Nat} (h : a ≤ 63) : (a <<< 1) % 256 = a <<< 1 := by
  rw [Nat.shiftLeft_eq]; omega

theorem shl_or_mod_of_le {a : Nat} (h : a ≤ 63) :
    ((a <<< 1) ||| 0x80) % 256 = (a <<< 1) ||| 0x80 := by
  interval_cases a <;> rfl

theorem sys_write_log {σ : Type} (bus : Bus σ) (bytes : List Nat) (w : World σ) :
    (sys_write bus bytes w).2.log = w.log ++ [BusEvent.wr bytes] := rfl

theorem sys_read_log {σ : Type} (bus : Bus σ) (buf0 : Nat) (w : World σ) :
    (sys_read bus buf0 w).2.2.log = w.log ++ [BusEvent.rd (sys_read bus buf0 w).2.1] := rfl

theorem write_reg_log {σ : Type} (bus : Bus σ) (reg val : Nat) (w : World σ) :
    (write_reg bus reg val w).2.log = w.log ++ [BusEvent.wr [(reg <<< 1) % 256, val % 256]] := by
  unfold write_reg
  simp only []
  split <;> exact sys_write_log _ _ _

theorem write_reg_st {σ : Type} (bus : Bus σ) (reg val : Nat) (w : World σ) :
    (write_reg bus reg val w).2.st = (bus.write w.st [(reg <<< 1) % 256, val % 256]).2 := by
  unfold write_reg
  simp only []
  split <;> rfl

/-- What `read_reg` adds to the log: its addressing byte, then at most one `read`. -/
theorem read_reg_log {σ : Type} (bus : Bus σ) (reg : Nat) (w : World σ) :
    ∃ tail, (read_reg bus reg w).2.log
        = w.log ++ BusEvent.wr [((reg <<< 1) ||| 0x80) % 256] :: tail ∧ payloads tail = [] := by
  unfold read_reg
  simp only []
  split
  · exact ⟨[], by simp [sys_write_log], rfl⟩
  · split <;>
      exact ⟨[BusEvent.rd (sys_read bus (((reg <<< 1) ||| 0x80) % 256)
          (sys_write bus [((reg <<< 1) ||| 0x80) % 256] w).2).2.1],
        by simp [sys_read_log, sys_write_log], rfl⟩

theorem mfrc522_wellFormed : mfrc522.WellFormed where
  CommandReg_le := by decide
  ComIrqReg_le := by decide
  FIFODataReg_le := by decide
  FIFOLevelReg_le := by decide
  BitFramingReg_le := by decide
  ModeReg_le := by decide
  TxControlReg_le := by decide
  TxASKReg_le := by decide
  TModeReg_le := by decide
  TPrescalerReg_le := by decide
  TReloadRegH_le := by decide
  TReloadRegL_le := by decide
  PCD_SoftReset_lt := by decide
  PCD_Transceive_lt := by decide
  TAuto_lt := by decide
  TPrescaler_Hi_lt := by decide
  TPrescaler_Lo_lt := by decide
  Force100ASK_lt := by decide
  Tx1RFEn_lt := by decide
  Tx2RFEn_lt := by decide
  FlushBuffer_lt := by decide
  RxIRq_lt := by decide
  RxIRq_ne := by decide
  StartSend_lt := by decide
  StartSend_ne := by decide
  TxLastBits_lt := fun x _ =>
    Nat.lt_of_le_of_lt (Nat.and_le_right (n := x) (m := 0x07)) (by decide)
  ComIrq_ne_FIFOLevel := by decide
  ComIrq_ne_FIFOData := by decide
  FIFOLevel_ne_FIFOData := by decide

theorem quietChip_allSucceed : AllSucceed quietChip :=
  ⟨fun _ bytes => Int.natCast_nonneg bytes.length, fun _ => Int.one_nonneg⟩

/-! ## Register framing -/

/-- C1: for every register address `a ≤ 63` and 8-bit value `v`, on any bus, the
only payload `read_reg` writes is the single byte `(a << 1) | 0x80`, and
`write_reg` makes exactly one bus call, a write of the two bytes `(a << 1)`, `v`. -/
theorem read_write_framing {σ : Type} (bus : Bus σ) (w : World σ) (a v : Nat)
    (ha : a ≤ 63) (hv : v < 256) :
    payloads (read_reg bus a w).2.log = payloads w.log ++ [[(a <<< 1) ||| 0x80]]
      ∧ (write_reg bus a v w).2.log = w.log ++ [BusEvent.wr [a <<< 1, v]] := by
  constructor
  · obtain ⟨tail, hlog, htail⟩ := read_reg_log bus a w
    rw [hlog, payloads_append, shl_or_mod_of_le ha]
    simp [payloads, htail]
  · rw [write_reg_log, shl_mod_of_le ha, Nat.mod_eq_of_lt hv]

theorem read_write_framing_witness :
    payloads (read_reg quietChip 0x14 ⟨(), []⟩).2.log = payloads [] ++ [[(0x14 <<< 1) ||| 0x80]]
      ∧ (write_reg quietChip 0x14 0x03 ⟨(), []⟩).2.log = [] ++ [BusEvent.wr [0x14 <<< 1, 0x03]] :=
  read_write_framing quietChip ⟨(), []⟩ 0x14 0x03 (by decide) (by decide)

/-! ## Write then read on the simulated register file -/

theorem write_byte_decode {a : Nat} (h : a ≤ 63) :
    (a <<< 1) % 256 < 0x80 ∧ (((a <<< 1) % 256) >>> 1) % 64 = a := by
  interval_cases a <;> exact ⟨by decide, rfl⟩

theorem read_byte_decode {a : Nat} (h : a ≤ 63) :
    0x80 ≤ ((a <<< 1) ||| 0x80) % 256 ∧ ((((a <<< 1) ||| 0x80) % 256) >>> 1) % 64 = a := by
  interval_cases a <;> exact ⟨by decide, rfl⟩

/-- C2: on the simulated register file, for every address `a ≤ 63` and 8-bit
value `v`, from any state of the register file, `write_reg(dev, a, v)` returns 0
and `read_reg(dev, a)` called right after it returns `v`. -/
theorem write_then_read (w : World RegFile) (a v : Nat) (ha : a ≤ 63) (hv : v < 256) :
    (write_reg regFile a v w).1 = 0
      ∧ (read_reg regFile a (write_reg regFile a v w).2).1 = (v : Int) := by
  obtain ⟨hw1, hw2⟩ := write_byte_decode ha
  obtain ⟨hr1, hr2⟩ := read_byte_decode ha
  simp [write_reg, read_reg, sys_write, sys_read, regFile, hw1, hw2, hr1, hr2,
    Nat.mod_eq_of_lt hv]

theorem write_then_read_witness :
    (write_reg regFile 0x14 0x83 ⟨⟨fun _ => 0, 0⟩, []⟩).1 = 0
      ∧ (read_reg regFile 0x14 (write_reg regFile 0x14 0x83 ⟨⟨fun _ => 0, 0⟩, []⟩).2).1
          = ((0x83 : Nat) : Int) :=
  write_then_read ⟨⟨fun _ => 0, 0⟩, []⟩ 0x14 0x83 (by decide) (by decide)

/-! ## The initialisation sequence -/

theorem or_lt_256 {a b : Nat} (ha : a < 256) (hb : b < 256) : a ||| b < 256 :=
  Nat.or_lt_two_pow (n := 8) ha hb

theorem toU8_natCast {r : Nat} (h : r < 256) : toU8 (r : Int) = r := by
  unfold toU8
  omega

theorem toU8_lor {r m : Nat} (hr : r < 256) (hm : m < 256) :
    toU8 (Int.lor (r : Int) (m : Int)) = r ||| m := by
  have h : Int.lor (r : Int) (m : Int) = ((r ||| m : Nat) : Int) := rfl
  rw [h, toU8_natCast (or_lt_256 hr hm)]

theorem sys_read_lt {σ : Type} (bus : Bus σ) (buf0 : Nat) (w : World σ) (h : buf0 < 256) :
    (sys_read bus buf0 w).2.1 < 256 := by
  unfold sys_read
  simp only []
  split
  · exact Nat.mod_lt _ (by decide)
  · exact h

/-- On a bus whose transfers succeed `read_reg` makes its two calls and returns
the byte left in the buffer. -/
theorem read_reg_ok {σ : Type} (bus : Bus σ) (hbus : AllSucceed bus) (reg : Nat) (w : World σ) :
    ∃ r : Nat, r < 256 ∧ (read_reg bus reg w).1 = (r : Int)
      ∧ (read_reg bus reg w).2.log
          = w.log ++ [BusEvent.wr [((reg <<< 1) ||| 0x80) % 256], BusEvent.rd r] := by
  have h1 : ¬ (sys_write bus [((reg <<< 1) ||| 0x80) % 256] w).1 < 0 :=
    not_lt.mpr (hbus.1 _ _)
  have h2 : ¬ (sys_read bus (((reg <<< 1) ||| 0x80) % 256)
      (sys_write bus [((reg <<< 1) ||| 0x80) % 256] w).2).1 < 0 := not_lt.mpr (hbus.2 _)
  refine ⟨(sys_read bus (((reg <<< 1) ||| 0x80) % 256)
      (sys_write bus [((reg <<< 1) ||| 0x80) % 256] w).2).2.1,
    sys_read_lt _ _ _ (Nat.mod_lt _ (by decide)), ?_, ?_⟩
  · unfold read_reg
    simp only [h1, h2, if_false]
  · unfold read_reg
    simp only [h1, h2, if_false, sys_read_log, sys_write_log, List.append_assoc,
      List.singleton_append]

/-- C3: on a bus whose transfers all succeed, `rc522_init` returns 0 and the bus
calls it adds to the log are exactly, in order: the write frames
CommandReg ← PCD_SoftReset, TModeReg ← TAuto | TPrescaler_Hi(0xd3e),
TPrescalerReg ← TPrescaler_Lo(0xd3e), TReloadRegL ← 0x1e, TReloadRegH ← 0x00,
TxASKReg ← Force100ASK, ModeReg ← 0x3d, then the read of TxControlReg (addressing
byte, one byte `r` back) and the write frame TxControlReg ← r | Tx1RFEn | Tx2RFEn. -/
theorem init_sequence {σ : Type} (bus : Bus σ) (hbus : AllSucceed bus) (c : Constants)
    (hc : c.WellFormed) (w : World σ) :
    ∃ r : Nat, r < 256 ∧ (rc522_init bus c w).1 = 0 ∧ (rc522_init bus c w).2.log = w.log ++
      [ specWriteFrame c.CommandReg c.PCD_SoftReset,
        specWriteFrame c.TModeReg (c.TModeReg_TAuto ||| c.TModeReg_TPrescaler_Hi 0xd3e),
        specWriteFrame c.TPrescalerReg (c.TPrescalerReg_TPrescaler_Lo 0xd3e),
        specWriteFrame c.TReloadRegL 0x1e,
        specWriteFrame c.TReloadRegH 0x00,
        specWriteFrame c.TxASKReg c.TxASKReg_Force100ASK,
        specWriteFrame c.ModeReg 0x3d,
        specReadFrame c.TxControlReg,
        BusEvent.rd r,
        specWriteFrame c.TxControlReg (r ||| c.TxControlReg_Tx1RFEn ||| c.TxControlReg_Tx2RFEn) ] := by
  have hmask := or_lt_256 hc.Tx1RFEn_lt hc.Tx2RFEn_lt
  obtain ⟨r, hr, hval, hlog⟩ := read_reg_ok bus hbus c.TxControlReg
    (write_reg bus c.ModeReg 0x3d
      (write_reg bus c.TxASKReg c.TxASKReg_Force100ASK
        (write_reg bus c.TReloadRegH 0x00
          (write_reg bus c.TReloadRegL 0x1e
            (write_reg bus c.TPrescalerReg (c.TPrescalerReg_TPrescaler_Lo 0xd3e)
              (write_reg bus c.TModeReg (c.TModeReg_TAuto ||| c.TModeReg_TPrescaler_Hi 0xd3e)
                (write_reg bus c.CommandReg c.PCD_SoftReset w).2).2).2).2).2).2).2
  refine ⟨r, hr, rfl, ?_⟩
  unfold rc522_init set_bits
  simp only [write_reg_log, hlog, hval, Nat.mod_eq_of_lt hmask, toU8_lor hr hmask,
    shl_mod_of_le hc.CommandReg_le, shl_mod_of_le hc.TModeReg_le,
    shl_mod_of_le hc.TPrescalerReg_le, shl_mod_of_le hc.TReloadRegL_le,
    shl_mod_of_le hc.TReloadRegH_le, shl_mod_of_le hc.TxASKReg_le, shl_mod_of_le hc.ModeReg_le,
    shl_mod_of_le hc.TxControlReg_le, shl_or_mod_of_le hc.TxControlReg_le,
    Nat.mod_eq_of_lt hc.PCD_SoftReset_lt,
    Nat.mod_eq_of_lt (or_lt_256 hc.TAuto_lt hc.TPrescaler_Hi_lt),
    Nat.mod_eq_of_lt hc.TPrescaler_Lo_lt, Nat.mod_eq_of_lt hc.Force100ASK_lt,
    Nat.mod_eq_of_lt (or_lt_256 hr hmask), specWriteFrame, specReadFrame, Nat.lor_assoc,
    List.append_assoc, List.singleton_append, List.cons_append, List.nil_append]

theorem init_sequence_witness :
    ∃ r : Nat, r < 256 ∧ (rc522_init quietChip mfrc522 ⟨(), []⟩).1 = 0
      ∧ (rc522_init quietChip mfrc522 ⟨(), []⟩).2.log = [] ++
      [ specWriteFrame mfrc522.CommandReg mfrc522.PCD_SoftReset,
        specWriteFrame mfrc522.TModeReg
          (mfrc522.TModeReg_TAuto ||| mfrc522.TModeReg_TPrescaler_Hi 0xd3e),
        specWriteFrame mfrc522.TPrescalerReg (mfrc522.TPrescalerReg_TPrescaler_Lo 0xd3e),
        specWriteFrame mfrc522.TReloadRegL 0x1e,
        specWriteFrame mfrc522.TReloadRegH 0x00,
        specWriteFrame mfrc522.TxASKReg mfrc522.TxASKReg_Force100ASK,
        specWriteFrame mfrc522.ModeReg 0x3d,
        specReadFrame mfrc522.TxControlReg,
        BusEvent.rd r,
        specWriteFrame mfrc522.TxControlReg
          (r ||| mfrc522.TxControlReg_Tx1RFEn ||| mfrc522.TxControlReg_Tx2RFEn) ] :=
  init_sequence quietChip quietChip_allSucceed mfrc522 mfrc522_wellFormed ⟨(), []⟩

/-! ## The send phase of `rc522_transceive` -/

theorem transceive_unfold {σ : Type} (bus : Bus σ) (c : Constants) (fuel : Nat)
    (input : List Nat) (tx_last_bits output_len : Nat) (w : World σ) (htx : tx_last_bits ≤ 7) :
    rc522_transceive bus c fuel input tx_last_bits output_len w =
      if (pollLoop bus c fuel (afterSend bus c input tx_last_bits w)).1 = false then
        Outcome.running (pollLoop bus c fuel (afterSend bus c input tx_last_bits w)).2
      else
        Outcome.returned
          (toSSize (min (toSize (read_reg bus c.FIFOLevelReg
            (pollLoop bus c fuel (afterSend bus c input tx_last_bits w)).2).1) output_len))
          (drain bus c (min (toSize (read_reg bus c.FIFOLevelReg
            (pollLoop bus c fuel (afterSend bus c input tx_last_bits w)).2).1) output_len) 0
            (read_reg bus c.FIFOLevelReg
              (pollLoop bus c fuel (afterSend bus c input tx_last_bits w)).2).2).1
          (drain bus c (min (toSize (read_reg bus c.FIFOLevelReg
            (pollLoop bus c fuel (afterSend bus c input tx_last_bits w)).2).1) output_len) 0
            (read_reg bus c.FIFOLevelReg
              (pollLoop bus c fuel (afterSend bus c input tx_last_bits w)).2).2).2 := by
  have hmin : ∀ a b : Nat, (if a > b then b else a) = min a b := by
    intro a b
    split <;> omega
  unfold rc522_transceive afterSend
  simp only [htx, not_true_eq_false, if_false, hmin]

theorem loadFifo_log {σ : Type} (bus : Bus σ) (c : Constants) (input : List Nat) (w : World σ) :
    (loadFifo bus c input w).log
      = w.log ++ input.map (fun b => BusEvent.wr [(c.FIFODataReg <<< 1) % 256, b % 256]) := by
  induction input generalizing w with
  | nil => simp [loadFifo]
  | cons b rest ih => simp [loadFifo, ih, write_reg_log]

/-- Whatever the bus answers, the send phase adds exactly the writes of steps 1–4. -/
theorem afterSend_log {σ : Type} (bus : Bus σ) (c : Constants) (hc : c.WellFormed)
    (input : List Nat) (hin : ∀ b ∈ input, b < 256) (tx_last_bits : Nat)
    (htx : tx_last_bits ≤ 7) (w : World σ) :
    (afterSend bus c input tx_last_bits w).log = w.log ++ sendWrites c input tx_last_bits := by
  have hmap : input.map (fun b => BusEvent.wr [(c.FIFODataReg <<< 1) % 256, b % 256])
      = input.map (specWriteFrame c.FIFODataReg) := by
    apply List.map_congr_left
    intro b hb
    simp only [specWriteFrame, shl_mod_of_le hc.FIFODataReg_le, Nat.mod_eq_of_lt (hin b hb)]
  unfold afterSend sendWrites
  simp only [write_reg_log, loadFifo_log, hmap, specWriteFrame,
    shl_mod_of_le hc.FIFOLevelReg_le, shl_mod_of_le hc.ComIrqReg_le,
    shl_mod_of_le hc.CommandReg_le, shl_mod_of_le hc.BitFramingReg_le,
    Nat.mod_eq_of_lt hc.FlushBuffer_lt, Nat.mod_eq_of_lt hc.PCD_Transceive_lt,
    Nat.mod_eq_of_lt (or_lt_256 hc.StartSend_lt (hc.TxLastBits_lt _ htx)),
    Nat.zero_mod, List.append_assoc, List.singleton_append, List.cons_append, List.nil_append]

theorem sendWrites_length (c : Constants) (input : List Nat) (tx_last_bits : Nat) :
    (sendWrites c input tx_last_bits).length = input.length + 4 := by
  simp [sendWrites]

theorem read_reg_extends {σ : Type} (bus : Bus σ) (reg : Nat) (w : World σ) :
    w.log <+: (read_reg bus reg w).2.log := by
  obtain ⟨tail, h, _⟩ := read_reg_log bus reg w
  exact ⟨_, h.symm⟩

theorem pollLoop_extends {σ : Type} (bus : Bus σ) (c : Constants) (fuel : Nat) (w : World σ) :
    w.log <+: (pollLoop bus c fuel w).2.log := by
  induction fuel generalizing w with
  | zero => exact List.prefix_refl _
  | succ k ih =>
    unfold pollLoop
    simp only []
    split
    · exact read_reg_extends bus _ w
    · exact (read_reg_extends bus _ w).trans (ih _)

theorem drain_extends {σ : Type} (bus : Bus σ) (c : Constants) (m i : Nat) (w : World σ) :
    w.log <+: (drain bus c m i w).2.log := by
  induction m generalizing i w with
  | zero => exact List.prefix_refl _
  | succ k ih =>
    unfold drain
    exact (read_reg_extends bus _ w).trans (ih _ _)

/-- The first poll: with at least one unit of fuel the poll loop starts with the
read-addressing byte of ComIrqReg. -/
theorem pollLoop_first {σ : Type} (bus : Bus σ) (c : Constants) (fuel : Nat) (w : World σ) :
    ∃ tail, (pollLoop bus c (fuel + 1) w).2.log
      = w.log ++ BusEvent.wr [((c.ComIrqReg <<< 1) ||| 0x80) % 256] :: tail := by
  obtain ⟨t1, h1, _⟩ := read_reg_log bus c.ComIrqReg w
  unfold pollLoop
  simp only []
  split
  · exact ⟨t1, h1⟩
  · obtain ⟨t2, h2⟩ := pollLoop_extends bus c fuel (read_reg bus c.ComIrqReg w).2
    exact ⟨t1 ++ t2, by rw [← h2, h1]; simp⟩

/-- The log of a call that passed the assertion extends the log at the end of
the send phase by what the poll loop and the drain phase add. -/
theorem transceive_log {σ : Type} (bus : Bus σ) (c : Constants) (fuel : Nat)
    (input : List Nat) (tx_last_bits output_len : Nat) (w : World σ) (htx : tx_last_bits ≤ 7) :
    (pollLoop bus c fuel (afterSend bus c input tx_last_bits w)).2.log
      <+: (rc522_transceive bus c fuel input tx_last_bits output_len w).world.log := by
  rw [transceive_unfold bus c fuel input tx_last_bits output_len w htx]
  split
  · exact List.prefix_refl _
  · exact (read_reg_extends bus _ _).trans (drain_extends bus c _ _ _)

theorem sendWrites_all_writes (c : Constants) (input : List Nat) (tx_last_bits : Nat) :
    ∀ e ∈ sendWrites c input tx_last_bits, ∃ reg val, e = specWriteFrame reg val := by
  intro e he
  simp only [sendWrites, List.cons_append, List.mem_cons, List.mem_append, List.mem_map,
    List.mem_singleton, List.not_mem_nil, or_false] at he
  rcases he with h | ⟨b, _, h⟩ | h | h | h
  · exact ⟨_, _, h⟩
  · exact ⟨_, _, h.symm⟩
  · exact ⟨_, _, h⟩
  · exact ⟨_, _, h⟩
  · exact ⟨_, _, h⟩

/-- C10: for every frame of bytes and every `tx_last_bits ≤ 7`, on any bus, the
bus calls of `rc522_transceive` up to its first poll (the read-addressing byte
of ComIrqReg) are exactly `sendWrites`: FIFOLevelReg ← FlushBuffer, then
FIFODataReg ← input[0], …, input[n-1] in frame order, ComIrqReg ← 0x00,
CommandReg ← PCD_Transceive, and last BitFramingReg ← StartSend | TxLastBits(tx_last_bits).
These are `n + 4` calls and each of them is a register write. -/
theorem send_sequence {σ : Type} (bus : Bus σ) (c : Constants) (hc : c.WellFormed)
    (input : List Nat) (hin : ∀ b ∈ input, b < 256) (tx_last_bits : Nat)
    (htx : tx_last_bits ≤ 7) (fuel output_len : Nat) (w : World σ) :
    (∃ tail, (rc522_transceive bus c (fuel + 1) input tx_last_bits output_len w).world.log
        = w.log ++ sendWrites c input tx_last_bits ++ specReadFrame c.ComIrqReg :: tail)
      ∧ (sendWrites c input tx_last_bits).length = input.length + 4
      ∧ ∀ e ∈ sendWrites c input tx_last_bits, ∃ reg val, e = specWriteFrame reg val := by
  refine ⟨?_, sendWrites_length c input tx_last_bits, sendWrites_all_writes c input tx_last_bits⟩
  obtain ⟨t1, h1⟩ := pollLoop_first bus c fuel (afterSend bus c input tx_last_bits w)
  obtain ⟨t2, h2⟩ := transceive_log bus c (fuel + 1) input tx_last_bits output_len w htx
  refine ⟨t1 ++ t2, ?_⟩
  rw [← h2, h1, afterSend_log bus c hc input hin tx_last_bits htx w,
    shl_or_mod_of_le hc.ComIrqReg_le]
  simp [specReadFrame]

theorem send_sequence_witness :
    (∃ tail, (rc522_transceive quietChip mfrc522 (0 + 1) [0x26] 7 16 ⟨(), []⟩).world.log
        = [] ++ sendWrites mfrc522 [0x26] 7 ++ specReadFrame mfrc522.ComIrqReg :: tail)
      ∧ (sendWrites mfrc522 [0x26] 7).length = [0x26].length + 4
      ∧ ∀ e ∈ sendWrites mfrc522 [0x26] 7, ∃ reg val, e = specWriteFrame reg val :=
  send_sequence quietChip mfrc522 mfrc522_wellFormed [0x26] (by decide) 7 (by decide) 0 16
    ⟨(), []⟩

theorem toSSize_nonneg {n : Nat} (h : n < 2 ^ 63) : 0 ≤ toSSize n := by
  unfold toSSize
  split <;> omega

theorem toSSize_le (n : Nat) : toSSize n ≤ (n : Int) := by
  unfold toSSize
  split <;> omega

/-! ## Argument checks -/

/-- C6 as stated fails: with `tx_last_bits = 8` no result is returned at all, the
assertion aborts the program. -/
theorem bit_count_8_aborts :
    rc522_transceive quietChip mfrc522 1 [0x26] 8 16 ⟨(), []⟩ = Outcome.aborted ⟨(), []⟩
      ∧ (rc522_transceive quietChip mfrc522 1 [0x26] 8 16 ⟨(), []⟩).result = none := by
  constructor <;> rfl

/-- C6, amended: for every `tx_last_bits` in 8..255 the call fails the assertion
`tx_last_bits <= 7` and aborts in the world it was called in: no bus call is
made and the bus state is untouched; no value is returned. -/
theorem bad_bit_count_aborts {σ : Type} (bus : Bus σ) (c : Constants) (fuel : Nat)
    (input : List Nat) (tx_last_bits output_len : Nat) (w : World σ)
    (h8 : 8 ≤ tx_last_bits) (_h256 : tx_last_bits < 256) :
    rc522_transceive bus c fuel input tx_last_bits output_len w = Outcome.aborted w := by
  have h : ¬ tx_last_bits ≤ 7 := by omega
  unfold rc522_transceive
  simp only [h, not_false_eq_true, if_true]

theorem bad_bit_count_aborts_witness :
    rc522_transceive quietChip mfrc522 1 [0x26] 200 16 ⟨(), []⟩ = Outcome.aborted ⟨(), []⟩ :=
  bad_bit_count_aborts quietChip mfrc522 1 [0x26] 200 16 ⟨(), []⟩ (by decide) (by decide)

/-- C7 as stated fails: a 65-byte frame is not rejected. On the mock chip the
call returns 0 after at least 69 bus writes. -/
theorem long_frame_not_rejected :
    (rc522_transceive (mockChip mfrc522 0 (fun _ => 0) 0) mfrc522 1 (List.replicate 65 0) 0 16
        ⟨⟨0, none, 0⟩, []⟩).result = some 0
      ∧ 69 ≤ (payloads (rc522_transceive (mockChip mfrc522 0 (fun _ => 0) 0) mfrc522 1
        (List.replicate 65 0) 0 16 ⟨⟨0, none, 0⟩, []⟩).world.log).length := by
  decide

theorem fifoLoads_append (c : Constants) (xs ys : List BusEvent) :
    fifoLoads c (xs ++ ys) = fifoLoads c xs + fifoLoads c ys := by
  unfold fifoLoads
  exact List.countP_append _ xs ys

theorem fifoLoads_frame (c : Constants) (input : List Nat) :
    fifoLoads c (input.map (specWriteFrame c.FIFODataReg)) = input.length := by
  induction input with
  | nil => rfl
  | cons b rest ih =>
    unfold fifoLoads at ih ⊢
    rw [List.map_cons, List.countP_cons, ih]
    simp [specWriteFrame]

theorem fifoLoads_sendWrites (c : Constants) (input : List Nat) (tx_last_bits : Nat) :
    input.length ≤ fifoLoads c (sendWrites c input tx_last_bits) := by
  have h : sendWrites c input tx_last_bits
      = [specWriteFrame c.FIFOLevelReg c.FIFOLevelReg_FlushBuffer]
        ++ (input.map (specWriteFrame c.FIFODataReg)
        ++ [ specWriteFrame c.ComIrqReg 0x00,
             specWriteFrame c.CommandReg c.PCD_Transceive,
             specWriteFrame c.BitFramingReg
               (c.BitFramingReg_StartSend ||| c.BitFramingReg_TxLastBits tx_last_bits) ]) := rfl
  rw [h, fifoLoads_append, fifoLoads_append, fifoLoads_frame]
  omega

/-- A call that passed the assertion is the receive phase run from the world the
send phase reached. -/
theorem transceive_eq_receivePhase {σ : Type} (bus : Bus σ) (c : Constants) (fuel : Nat)
    (input : List Nat) (tx_last_bits output_len : Nat) (w : World σ) (htx : tx_last_bits ≤ 7) :
    rc522_transceive bus c fuel input tx_last_bits output_len w
      = receivePhase bus c fuel output_len (afterSend bus c input tx_last_bits w) := by
  unfold rc522_transceive receivePhase afterSend
  simp only [htx, not_true_eq_false, if_false]

/-- C7, amended: `rc522_transceive` has no check of the frame length. For a frame
of more than 64 bytes (and `tx_last_bits ≤ 7`, `output_len < 2^63`) on any bus:
the call is not aborted; the bus calls it adds start with the whole of
`sendWrites` – the FIFOLevelReg flush, one FIFODataReg write for every byte of
the frame in frame order, then the ComIrqReg, CommandReg and BitFramingReg
writes – so more than 64 FIFODataReg writes are made; from there the call is
exactly the receive phase (poll loop, FIFO-level read, drain) that follows any
other frame; and a value it returns is between 0 and `output_len`, never an
error code. -/
theorem long_frame_loaded {σ : Type} (bus : Bus σ) (c : Constants) (hc : c.WellFormed)
    (input : List Nat) (hin : ∀ b ∈ input, b < 256) (hlen : 64 < input.length)
    (tx_last_bits : Nat) (htx : tx_last_bits ≤ 7) (fuel output_len : Nat)
    (hcap : output_len < 2 ^ 63) (w : World σ) :
    (∀ w', rc522_transceive bus c fuel input tx_last_bits output_len w ≠ Outcome.aborted w')
      ∧ (∃ tail, (rc522_transceive bus c fuel input tx_last_bits output_len w).world.log
          = w.log ++ sendWrites c input tx_last_bits ++ tail)
      ∧ fifoLoads c w.log + 64
          < fifoLoads c (rc522_transceive bus c fuel input tx_last_bits output_len w).world.log
      ∧ rc522_transceive bus c fuel input tx_last_bits output_len w
          = receivePhase bus c fuel output_len (afterSend bus c input tx_last_bits w)
      ∧ (afterSend bus c input tx_last_bits w).log = w.log ++ sendWrites c input tx_last_bits
      ∧ ∀ ret, (rc522_transceive bus c fuel input tx_last_bits output_len w).result = some ret
          → 0 ≤ ret ∧ ret ≤ (output_len : Int) := by
  have hsend := afterSend_log bus c hc input hin tx_last_bits htx w
  have hlog : ∃ tail, (rc522_transceive bus c fuel input tx_last_bits output_len w).world.log
      = w.log ++ sendWrites c input tx_last_bits ++ tail := by
    obtain ⟨t1, h1⟩ := pollLoop_extends bus c fuel (afterSend bus c input tx_last_bits w)
    obtain ⟨t2, h2⟩ := transceive_log bus c fuel input tx_last_bits output_len w htx
    rw [hsend] at h1
    exact ⟨t1 ++ t2, by rw [← h2, ← h1, List.append_assoc]⟩
  refine ⟨?_, hlog, ?_, transceive_eq_receivePhase bus c fuel input tx_last_bits output_len w htx,
    hsend, ?_⟩
  · intro w'
    rw [transceive_unfold bus c fuel input tx_last_bits output_len w htx]
    split <;> simp
  · obtain ⟨tail, h⟩ := hlog
    rw [h, fifoLoads_append, fifoLoads_append]
    have := fifoLoads_sendWrites c input tx_last_bits
    omega
  · intro ret hret
    rw [transceive_unfold bus c fuel input tx_last_bits output_len w htx] at hret
    split at hret
    · simp [Outcome.result] at hret
    · simp only [Outcome.result, Option.some.injEq] at hret
      rw [← hret]
      exact ⟨toSSize_nonneg (lt_of_le_of_lt (Nat.min_le_right _ _) hcap),
        le_trans (toSSize_le _) (Int.ofNat_le.mpr (Nat.min_le_right _ _))⟩

theorem long_frame_loaded_witness :
    (∀ w', rc522_transceive (mockChip mfrc522 2 (fun i => [0x04, 0x00].getD i 0) 0) mfrc522 1
        (List.replicate 65 0) 0 16 ⟨⟨0, none, 0⟩, []⟩ ≠ Outcome.aborted w')
      ∧ (∃ tail, (rc522_transceive (mockChip mfrc522 2 (fun i => [0x04, 0x00].getD i 0) 0)
            mfrc522 1 (List.replicate 65 0) 0 16 ⟨⟨0, none, 0⟩, []⟩).world.log
          = [] ++ sendWrites mfrc522 (List.replicate 65 0) 0 ++ tail)
      ∧ fifoLoads mfrc522 [] + 64
          < fifoLoads mfrc522 (rc522_transceive
              (mockChip mfrc522 2 (fun i => [0x04, 0x00].getD i 0) 0) mfrc522 1
              (List.replicate 65 0) 0 16 ⟨⟨0, none, 0⟩, []⟩).world.log
      ∧ rc522_transceive (mockChip mfrc522 2 (fun i => [0x04, 0x00].getD i 0) 0) mfrc522 1
            (List.replicate 65 0) 0 16 ⟨⟨0, none, 0⟩, []⟩
          = receivePhase (mockChip mfrc522 2 (fun i => [0x04, 0x00].getD i 0) 0) mfrc522 1 16
              (afterSend (mockChip mfrc522 2 (fun i => [0x04, 0x00].getD i 0) 0) mfrc522
                (List.replicate 65 0) 0 ⟨⟨0, none, 0⟩, []⟩)
      ∧ (afterSend (mockChip mfrc522 2 (fun i => [0x04, 0x00].getD i 0) 0) mfrc522
            (List.replicate 65 0) 0 ⟨⟨0, none, 0⟩, []⟩).log
          = [] ++ sendWrites mfrc522 (List.replicate 65 0) 0
      ∧ ∀ ret, (rc522_transceive (mockChip mfrc522 2 (fun i => [0x04, 0x00].getD i 0) 0)
            mfrc522 1 (List.replicate 65 0) 0 16 ⟨⟨0, none, 0⟩, []⟩).result = some ret
          → 0 ≤ ret ∧ ret ≤ ((16 : Nat) : Int) :=
  long_frame_loaded (mockChip mfrc522 2 (fun i => [0x04, 0x00].getD i 0) 0) mfrc522
    mfrc522_wellFormed (List.replicate 65 0) (by decide) (by decide) 0 (by decide) 1 16
    (by decide) ⟨⟨0, none, 0⟩, []⟩

/-! ## Bus failures -/

/-- The `k`-th iteration of the FIFO load loop runs in the world reached by
loading the first `k` bytes. -/
theorem loadFifo_split {σ : Type} (bus : Bus σ) (c : Constants) (input : List Nat) (k : Nat)
    (hk : k < input.length) (w : World σ) :
    loadFifo bus c input w = loadFifo bus c (input.drop (k + 1))
      (write_reg bus c.FIFODataReg (input.getD k 0) (loadFifo bus c (input.take k) w)).2 := by
  induction input generalizing k w with
  | nil => simp at hk
  | cons b rest ih =>
    cases k with
    | zero => simp [loadFifo]
    | succ j =>
      have hj : j < rest.length := by simpa using hk
      simp only [loadFifo, List.drop_succ_cons, List.take_succ_cons, List.getD_cons_succ]
      exact ih j hj _

/-- C9 as stated fails: on a chip whose FIFO data writes fail, the write that
loads `input[0]` returns -1, yet the call goes on, writes PCD_Transceive to
CommandReg and returns 2 with the two response bytes stored. -/
theorem fifo_fault_ignored :
    (write_reg (fifoFaultChip mfrc522 2 (fun i => [0x04, 0x00].getD i 0) 0) mfrc522.FIFODataReg 0x26
        (write_reg (fifoFaultChip mfrc522 2 (fun i => [0x04, 0x00].getD i 0) 0)
          mfrc522.FIFOLevelReg mfrc522.FIFOLevelReg_FlushBuffer ⟨⟨0, none, 0⟩, []⟩).2).1 = -1
      ∧ (rc522_transceive (fifoFaultChip mfrc522 2 (fun i => [0x04, 0x00].getD i 0) 0) mfrc522 1
          [0x26] 7 16 ⟨⟨0, none, 0⟩, []⟩).result = some 2
      ∧ (rc522_transceive (fifoFaultChip mfrc522 2 (fun i => [0x04, 0x00].getD i 0) 0) mfrc522 1
          [0x26] 7 16 ⟨⟨0, none, 0⟩, []⟩).stores = [(0, 0x04), (1, 0x00)]
      ∧ specWriteFrame mfrc522.CommandReg mfrc522.PCD_Transceive
          ∈ (rc522_transceive (fifoFaultChip mfrc522 2 (fun i => [0x04, 0x00].getD i 0) 0)
              mfrc522 1 [0x26] 7 16 ⟨⟨0, none, 0⟩, []⟩).world.log := by
  decide

/-- C9, amended: when the bus write that loads `input[k]` into FIFODataReg fails
(`write_reg` returns -1 there), `rc522_transceive` discards the failure. The
remaining writes of the send phase are still issued – the whole of `sendWrites`,
CommandReg ← PCD_Transceive included – and a value the call returns is not
negative (for `output_len` below 2^63). -/
theorem fifo_write_failure_ignored {σ : Type} (bus : Bus σ) (c : Constants) (hc : c.WellFormed)
    (input : List Nat) (hin : ∀ b ∈ input, b < 256) (k : Nat) (_hk : k < input.length)
    (tx_last_bits : Nat) (htx : tx_last_bits ≤ 7) (fuel output_len : Nat)
    (hlen : output_len < 2 ^ 63) (w : World σ)
    (_hfail : (write_reg bus c.FIFODataReg (input.getD k 0)
      (loadFifo bus c (input.take k)
        (write_reg bus c.FIFOLevelReg c.FIFOLevelReg_FlushBuffer w).2)).1 = -1) :
    (∃ tail, (rc522_transceive bus c fuel input tx_last_bits output_len w).world.log
        = w.log ++ sendWrites c input tx_last_bits ++ tail)
      ∧ specWriteFrame c.CommandReg c.PCD_Transceive
          ∈ (rc522_transceive bus c fuel input tx_last_bits output_len w).world.log
      ∧ ∀ ret, (rc522_transceive bus c fuel input tx_last_bits output_len w).result = some ret
          → 0 ≤ ret := by
  have hlog : ∃ tail, (rc522_transceive bus c fuel input tx_last_bits output_len w).world.log
      = w.log ++ sendWrites c input tx_last_bits ++ tail := by
    obtain ⟨t1, h1⟩ := pollLoop_extends bus c fuel (afterSend bus c input tx_last_bits w)
    obtain ⟨t2, h2⟩ := transceive_log bus c fuel input tx_last_bits output_len w htx
    rw [afterSend_log bus c hc input hin tx_last_bits htx w] at h1
    exact ⟨t1 ++ t2, by rw [← h2, ← h1, List.append_assoc]⟩
  refine ⟨hlog, ?_, ?_⟩
  · obtain ⟨tail, h⟩ := hlog
    rw [h]
    simp [sendWrites]
  · intro ret hret
    rw [transceive_unfold bus c fuel input tx_last_bits output_len w htx] at hret
    split at hret
    · simp [Outcome.result] at hret
    · simp only [Outcome.result, Option.some.injEq] at hret
      rw [← hret]
      exact toSSize_nonneg (lt_of_le_of_lt (Nat.min_le_right _ _) hlen)

theorem fifo_write_failure_ignored_witness :
    (∃ tail, (rc522_transceive (fifoFaultChip mfrc522 2 (fun i => [0x04, 0x00].getD i 0) 0)
          mfrc522 1 [0x26] 7 16 ⟨⟨0, none, 0⟩, []⟩).world.log
        = [] ++ sendWrites mfrc522 [0x26] 7 ++ tail)
      ∧ specWriteFrame mfrc522.CommandReg mfrc522.PCD_Transceive
          ∈ (rc522_transceive (fifoFaultChip mfrc522 2 (fun i => [0x04, 0x00].getD i 0) 0)
              mfrc522 1 [0x26] 7 16 ⟨⟨0, none, 0⟩, []⟩).world.log
      ∧ ∀ ret, (rc522_transceive (fifoFaultChip mfrc522 2 (fun i => [0x04, 0x00].getD i 0) 0)
          mfrc522 1 [0x26] 7 16 ⟨⟨0, none, 0⟩, []⟩).result = some ret → 0 ≤ ret :=
  fifo_write_failure_ignored (fifoFaultChip mfrc522 2 (fun i => [0x04, 0x00].getD i 0) 0) mfrc522
    mfrc522_wellFormed [0x26] (by decide) 0 (by decide) 7 (by decide) 1 16 (by decide)
    ⟨⟨0, none, 0⟩, []⟩ (by decide)

/-! ## The output buffer -/

theorem drain_indices {σ : Type} (bus : Bus σ) (c : Constants) (m i : Nat) (w : World σ) :
    ∀ p ∈ (drain bus c m i w).1, i ≤ p.1 ∧ p.1 < i + m := by
  induction m generalizing i w with
  | zero => simp [drain]
  | succ k ih =>
    intro p hp
    unfold drain at hp
    simp only [List.mem_cons] at hp
    rcases hp with h | h
    · subst h
      exact ⟨le_refl _, by simp⟩
    · have := ih (i + 1) _ p h
      omega

/-- C5: on any bus, whatever the chip answers (a FIFO level above the capacity, a
failed FIFO-level read, …), if `rc522_transceive` returns `ret` then
`ret ≤ output_len` and every assignment `output[i] = …` it made has `i < output_len`. -/
theorem drained_within_capacity {σ : Type} (bus : Bus σ) (c : Constants) (fuel : Nat)
    (input : List Nat) (tx_last_bits output_len : Nat) (w : World σ) (ret : Int)
    (hret : (rc522_transceive bus c fuel input tx_last_bits output_len w).result = some ret) :
    ret ≤ (output_len : Int)
      ∧ (∀ p ∈ (rc522_transceive bus c fuel input tx_last_bits output_len w).stores,
          p.1 < output_len) := by
  by_cases htx : tx_last_bits ≤ 7
  · rw [transceive_unfold bus c fuel input tx_last_bits output_len w htx] at hret ⊢
    split at hret
    · simp [Outcome.result] at hret
    · rename_i hp
      simp only [Outcome.result, Option.some.injEq] at hret
      simp only [hp, if_false, Outcome.stores]
      constructor
      · rw [← hret]
        exact le_trans (toSSize_le _) (Int.ofNat_le.mpr (Nat.min_le_right _ _))
      · intro p hpm
        have h := drain_indices bus c _ 0 _ p hpm
        have h2 := Nat.min_le_right (toSize (read_reg bus c.FIFOLevelReg
          (pollLoop bus c fuel (afterSend bus c input tx_last_bits w)).2).1) output_len
        omega
  · have hab : rc522_transceive bus c fuel input tx_last_bits output_len w = Outcome.aborted w := by
      unfold rc522_transceive
      simp only [htx, not_false_eq_true, if_true]
    rw [hab] at hret
    simp [Outcome.result] at hret

theorem drained_within_capacity_witness :
    ((2 : Int) ≤ ((2 : Nat) : Int)
      ∧ (∀ p ∈ (rc522_transceive deadBus mfrc522 1 [0x26] 7 2 ⟨(), []⟩).stores, p.1 < 2))
      ∧ (rc522_transceive deadBus mfrc522 1 [0x26] 7 2 ⟨(), []⟩).stores = [(0, 255), (1, 255)] :=
  ⟨drained_within_capacity deadBus mfrc522 1 [0x26] 7 2 ⟨(), []⟩ 2 (by decide), by decide⟩

/-! ## A chip that never signals receive-complete -/

theorem count_wr_of_payloads_nil (bytes : List Nat) (l : List BusEvent)
    (h : payloads l = []) : List.count (BusEvent.wr bytes) l = 0 := by
  induction l with
  | nil => rfl
  | cons e es ih =>
    cases e with
    | wr bs => simp [payloads] at h
    | rd g => simpa [payloads, List.count_cons] using ih h

theorem read_reg_count {σ : Type} (bus : Bus σ) (reg : Nat) (w : World σ) :
    List.count (BusEvent.wr [((reg <<< 1) ||| 0x80) % 256]) (read_reg bus reg w).2.log
      = List.count (BusEvent.wr [((reg <<< 1) ||| 0x80) % 256]) w.log + 1 := by
  obtain ⟨tail, h, ht⟩ := read_reg_log bus reg w
  rw [h, List.count_append, List.count_cons_self, count_wr_of_payloads_nil _ _ ht]

/-- While every ComIrqReg read comes back with the receive-complete bit clear,
the poll loop is still running after any number of polls, and it has made that
many polls. -/
theorem pollLoop_quiet {σ : Type} (bus : Bus σ) (c : Constants)
    (hquiet : ∀ w, toU8 (read_reg bus c.ComIrqReg w).1 &&& c.ComIrqReg_RxIRq = 0)
    (fuel : Nat) (w : World σ) :
    (pollLoop bus c fuel w).1 = false
      ∧ List.count (BusEvent.wr [((c.ComIrqReg <<< 1) ||| 0x80) % 256])
          (pollLoop bus c fuel w).2.log
        = List.count (BusEvent.wr [((c.ComIrqReg <<< 1) ||| 0x80) % 256]) w.log + fuel := by
  induction fuel generalizing w with
  | zero => exact ⟨rfl, rfl⟩
  | succ k ih =>
    unfold pollLoop
    simp only [hquiet w, ne_eq, not_true_eq_false, if_false]
    refine ⟨(ih _).1, ?_⟩
    rw [(ih _).2, read_reg_count]
    omega

theorem quietChip_quiet (c : Constants) (w : World Unit) :
    0 ≤ (read_reg quietChip c.ComIrqReg w).1
      ∧ toU8 (read_reg quietChip c.ComIrqReg w).1 &&& c.ComIrqReg_RxIRq = 0 := by
  have h : (read_reg quietChip c.ComIrqReg w).1 = 0 := by
    simp [read_reg, sys_write, sys_read, quietChip]
  rw [h]
  exact ⟨le_refl _, by simp [toU8]⟩

/-- C8 as stated fails: against a chip that never raises the receive-complete
flag there is no number of polls after which the call has returned a value. -/
theorem quiet_chip_never_returns :
    ¬ ∃ fuel ret, (rc522_transceive quietChip mfrc522 fuel [0x26] 7 16 ⟨(), []⟩).result
        = some ret := by
  rintro ⟨fuel, ret, h⟩
  rw [transceive_unfold quietChip mfrc522 fuel [0x26] 7 16 ⟨(), []⟩ (by decide),
    if_pos (pollLoop_quiet quietChip mfrc522 (fun w => (quietChip_quiet mfrc522 w).2) fuel _).1]
    at h
  simp [Outcome.result] at h

/-- C8, amended: if every read of ComIrqReg succeeds with the receive-complete
bit clear, `rc522_transceive` (called with `tx_last_bits ≤ 7`) never returns: for
every number `fuel` of polls the call is still inside its poll loop, has no
result, and has by then sent the ComIrqReg read-addressing byte at least `fuel`
times. The loop has no bound and there is no Timeout result. -/
theorem poll_unbounded {σ : Type} (bus : Bus σ) (c : Constants) (hc : c.WellFormed)
    (hquiet : ∀ w, 0 ≤ (read_reg bus c.ComIrqReg w).1
      ∧ toU8 (read_reg bus c.ComIrqReg w).1 &&& c.ComIrqReg_RxIRq = 0)
    (input : List Nat) (tx_last_bits : Nat) (htx : tx_last_bits ≤ 7) (output_len : Nat)
    (w : World σ) (fuel : Nat) :
    (rc522_transceive bus c fuel input tx_last_bits output_len w).result = none
      ∧ ∃ w', rc522_transceive bus c fuel input tx_last_bits output_len w = Outcome.running w'
        ∧ fuel ≤ List.count (specReadFrame c.ComIrqReg) w'.log := by
  have hp := pollLoop_quiet bus c (fun w => (hquiet w).2) fuel
    (afterSend bus c input tx_last_bits w)
  have hrun : rc522_transceive bus c fuel input tx_last_bits output_len w
      = Outcome.running (pollLoop bus c fuel (afterSend bus c input tx_last_bits w)).2 := by
    rw [transceive_unfold bus c fuel input tx_last_bits output_len w htx, if_pos hp.1]
  refine ⟨by rw [hrun]; rfl, _, hrun, ?_⟩
  have h2 := hp.2
  rw [shl_or_mod_of_le hc.ComIrqReg_le] at h2
  unfold specReadFrame
  omega

theorem poll_unbounded_witness :
    (rc522_transceive quietChip mfrc522 1000 [0x26] 7 16 ⟨(), []⟩).result = none
      ∧ ∃ w', rc522_transceive quietChip mfrc522 1000 [0x26] 7 16 ⟨(), []⟩ = Outcome.running w'
        ∧ 1000 ≤ List.count (specReadFrame mfrc522.ComIrqReg) w'.log :=
  poll_unbounded quietChip mfrc522 mfrc522_wellFormed (quietChip_quiet mfrc522) [0x26] 7
    (by decide) 16 ⟨(), []⟩ 1000

/-! ## Transceive against the mock chip -/

theorem read_byte_ne {a a' : Nat} (ha : a ≤ 63) (ha' : a' ≤ 63) (h : a ≠ a') :
    ((a <<< 1) ||| 0x80) % 256 ≠ ((a' <<< 1) ||| 0x80) % 256 := by
  intro heq
  apply h
  rw [← (read_byte_decode ha).2, ← (read_byte_decode ha').2, heq]

theorem or_and_self (s x : Nat) : (s ||| x) &&& s = s := by
  apply Nat.eq_of_testBit_eq
  intro i
  simp only [Nat.testBit_and, Nat.testBit_or]
  cases s.testBit i <;> cases x.testBit i <;> rfl

theorem toSize_natCast {n : Nat} (h : n < 256) : toSize (n : Int) = n := by
  unfold toSize
  omega

theorem toSSize_small {n : Nat} (h : n < 256) : toSSize n = (n : Int) := by
  unfold toSSize
  split <;> omega

theorem mock_write_reg (c : Constants) (n : Nat) (b : Nat → Nat) (d reg val : Nat)
    (w : World MockState) :
    (write_reg (mockChip c n b d) reg val w).2.st.sel = w.st.sel
      ∧ (write_reg (mockChip c n b d) reg val w).2.st.pos = w.st.pos := by
  rw [write_reg_st]
  simp only [mockChip]
  split <;> exact ⟨rfl, rfl⟩

theorem mock_loadFifo (c : Constants) (n : Nat) (b : Nat → Nat) (d : Nat) (input : List Nat)
    (w : World MockState) :
    (loadFifo (mockChip c n b d) c input w).st.sel = w.st.sel
      ∧ (loadFifo (mockChip c n b d) c input w).st.pos = w.st.pos := by
  induction input generalizing w with
  | nil => exact ⟨rfl, rfl⟩
  | cons x rest ih =>
    unfold loadFifo
    obtain ⟨h1, h2⟩ := ih (write_reg (mockChip c n b d) c.FIFODataReg x w).2
    obtain ⟨h3, h4⟩ := mock_write_reg c n b d c.FIFODataReg x w
    exact ⟨h1.trans h3, h2.trans h4⟩

/-- The mock chip at the end of the send phase: transmission was started. -/
theorem mock_afterSend (c : Constants) (hc : c.WellFormed) (n : Nat) (b : Nat → Nat) (d : Nat)
    (input : List Nat) (tx_last_bits : Nat) (htx : tx_last_bits ≤ 7) (w : World MockState) :
    (afterSend (mockChip c n b d) c input tx_last_bits w).st = ⟨w.st.sel, some d, w.st.pos⟩ := by
  have hstart : ((c.BitFramingReg_StartSend ||| c.BitFramingReg_TxLastBits tx_last_bits) % 256)
      &&& c.BitFramingReg_StartSend ≠ 0 := by
    rw [Nat.mod_eq_of_lt (or_lt_256 hc.StartSend_lt (hc.TxLastBits_lt _ htx)), or_and_self]
    exact hc.StartSend_ne
  obtain ⟨h1, h2⟩ := mock_write_reg c n b d c.FIFOLevelReg c.FIFOLevelReg_FlushBuffer w
  obtain ⟨h3, h4⟩ := mock_loadFifo c n b d input
    (write_reg (mockChip c n b d) c.FIFOLevelReg c.FIFOLevelReg_FlushBuffer w).2
  obtain ⟨h5, h6⟩ := mock_write_reg c n b d c.ComIrqReg 0x00
    (loadFifo (mockChip c n b d) c input
      (write_reg (mockChip c n b d) c.FIFOLevelReg c.FIFOLevelReg_FlushBuffer w).2)
  obtain ⟨h7, h8⟩ := mock_write_reg c n b d c.CommandReg c.PCD_Transceive
    (write_reg (mockChip c n b d) c.ComIrqReg 0x00
      (loadFifo (mockChip c n b d) c input
        (write_reg (mockChip c n b d) c.FIFOLevelReg c.FIFOLevelReg_FlushBuffer w).2)).2
  unfold afterSend
  rw [write_reg_st]
  simp only [mockChip, hstart, ne_eq, not_false_eq_true, and_self, if_true]
  rw [MockState.mk.injEq]
  exact ⟨h7.trans (h5.trans (h3.trans h1)), rfl, h8.trans (h6.trans (h4.trans h2))⟩

/-- A poll of the mock chip: the flag is reported once the wait count is 0. -/
theorem mock_read_irq (c : Constants) (n : Nat) (b : Nat → Nat) (d : Nat)
    (w : World MockState) (k : Nat) (hk : w.st.wait = some k) :
    (read_reg (mockChip c n b d) c.ComIrqReg w).1
        = (((if k = 0 then c.ComIrqReg_RxIRq % 256 else 0 : Nat)) : Int)
      ∧ (read_reg (mockChip c n b d) c.ComIrqReg w).2.st
        = ⟨((c.ComIrqReg <<< 1) ||| 0x80) % 256, some (k - 1), w.st.pos⟩ := by
  cases k with
  | zero => simp [read_reg, sys_write, sys_read, mockChip, hk]
  | succ j => simp [read_reg, sys_write, sys_read, mockChip, hk]

/-- With more fuel than the chip's delay the poll loop is left, and only the
selected register and the wait count of the chip changed. -/
theorem mock_poll (c : Constants) (hc : c.WellFormed) (n : Nat) (b : Nat → Nat) (d : Nat)
    (fuel : Nat) (w : World MockState) (k : Nat) (hk : w.st.wait = some k) (hfuel : k < fuel) :
    (pollLoop (mockChip c n b d) c fuel w).1 = true
      ∧ (pollLoop (mockChip c n b d) c fuel w).2.st.pos = w.st.pos := by
  induction fuel generalizing w k with
  | zero => omega
  | succ f ih =>
    obtain ⟨hval, hst⟩ := mock_read_irq c n b d w k hk
    unfold pollLoop
    simp only [hval]
    cases k with
    | zero =>
      have hflag : toU8 ((c.ComIrqReg_RxIRq % 256 : Nat) : Int) &&& c.ComIrqReg_RxIRq ≠ 0 := by
        rw [Nat.mod_eq_of_lt hc.RxIRq_lt, toU8_natCast hc.RxIRq_lt, Nat.and_self]
        exact hc.RxIRq_ne
      simp only [if_true, hflag, ne_eq, not_false_eq_true]
      rw [hst]
      exact ⟨trivial, rfl⟩
    | succ j =>
      have hzero : toU8 ((0 : Nat) : Int) &&& c.ComIrqReg_RxIRq = 0 := by
        simp [toU8]
      simp only [Nat.succ_ne_zero, if_false, hzero, ne_eq, not_true_eq_false]
      have hwait : (read_reg (mockChip c n b d) c.ComIrqReg w).2.st.wait = some j := by
        rw [hst]; rfl
      obtain ⟨h1, h2⟩ := ih (read_reg (mockChip c n b d) c.ComIrqReg w).2 j hwait (by omega)
      refine ⟨h1, h2.trans ?_⟩
      rw [hst]

theorem mock_read_level (c : Constants) (hc : c.WellFormed) (n : Nat) (b : Nat → Nat) (d : Nat)
    (w : World MockState) :
    (read_reg (mockChip c n b d) c.FIFOLevelReg w).1 = ((n % 256 : Nat) : Int)
      ∧ (read_reg (mockChip c n b d) c.FIFOLevelReg w).2.st.pos = w.st.pos := by
  have h1 := (read_byte_ne hc.ComIrqReg_le hc.FIFOLevelReg_le hc.ComIrq_ne_FIFOLevel).symm
  simp [read_reg, sys_write, sys_read, mockChip, h1]

theorem mock_read_data (c : Constants) (hc : c.WellFormed) (n : Nat) (b : Nat → Nat) (d : Nat)
    (w : World MockState) :
    (read_reg (mockChip c n b d) c.FIFODataReg w).1 = ((b w.st.pos % 256 : Nat) : Int)
      ∧ (read_reg (mockChip c n b d) c.FIFODataReg w).2.st.pos = w.st.pos + 1 := by
  have h1 := (read_byte_ne hc.ComIrqReg_le hc.FIFODataReg_le hc.ComIrq_ne_FIFOData).symm
  have h2 := (read_byte_ne hc.FIFOLevelReg_le hc.FIFODataReg_le hc.FIFOLevel_ne_FIFOData).symm
  simp [read_reg, sys_write, sys_read, mockChip, h1, h2]

/-- Draining the mock chip stores its FIFO bytes in FIFO order. -/
theorem mock_drain (c : Constants) (hc : c.WellFormed) (n : Nat) (b : Nat → Nat) (d : Nat)
    (hb : ∀ i, b i < 256) (m i : Nat) (w : World MockState) :
    (drain (mockChip c n b d) c m i w).1
      = (List.range m).map (fun j => (i + j, b (w.st.pos + j))) := by
  induction m generalizing i w with
  | zero => rfl
  | succ k ih =>
    obtain ⟨hval, hpos⟩ := mock_read_data c hc n b d w
    unfold drain
    simp only [hval, ih, hpos, Nat.mod_eq_of_lt (hb _), toU8_natCast (hb _)]
    rw [List.range_succ_eq_map, List.map_cons, List.map_map]
    simp only [Nat.add_zero, List.cons.injEq, true_and]
    apply List.map_congr_left
    intro j _
    simp only [Function.comp, Nat.succ_eq_add_one, Prod.mk.injEq]
    exact ⟨by omega, congrArg b (by omega)⟩

/-- C4: for every frame, every `tx_last_bits ≤ 7` and every capacity
`output_len`, against the mock chip (all transfers succeed; the
receive-complete flag is raised `d` polls after the start of transmission; FIFO
level `n`, FIFO bytes `b 0, b 1, …`), a call with more than `d` polls of fuel
returns `min n output_len` and its assignments to the output buffer are exactly
`output[i] = b i` for `i = 0, …, min n output_len - 1`, in this order. -/
theorem transceive_on_mock (c : Constants) (hc : c.WellFormed) (n : Nat) (b : Nat → Nat)
    (d : Nat) (hn : n < 256) (hb : ∀ i, b i < 256) (input : List Nat) (tx_last_bits : Nat)
    (htx : tx_last_bits ≤ 7) (output_len fuel : Nat) (hfuel : d < fuel)
    (sel0 : Nat) (wait0 : Option Nat) (log0 : List BusEvent) :
    ∃ w', rc522_transceive (mockChip c n b d) c fuel input tx_last_bits output_len
        ⟨⟨sel0, wait0, 0⟩, log0⟩
      = Outcome.returned ((min n output_len : Nat) : Int)
          ((List.range (min n output_len)).map (fun i => (i, b i))) w' := by
  have hsend := mock_afterSend c hc n b d input tx_last_bits htx ⟨⟨sel0, wait0, 0⟩, log0⟩
  have hwait : (afterSend (mockChip c n b d) c input tx_last_bits
      ⟨⟨sel0, wait0, 0⟩, log0⟩).st.wait = some d := by rw [hsend]
  obtain ⟨hp1, hp2⟩ := mock_poll c hc n b d fuel _ d hwait hfuel
  obtain ⟨hl1, hl2⟩ := mock_read_level c hc n b d
    (pollLoop (mockChip c n b d) c fuel
      (afterSend (mockChip c n b d) c input tx_last_bits ⟨⟨sel0, wait0, 0⟩, log0⟩)).2
  have hpos : (read_reg (mockChip c n b d) c.FIFOLevelReg
      (pollLoop (mockChip c n b d) c fuel
        (afterSend (mockChip c n b d) c input tx_last_bits
          ⟨⟨sel0, wait0, 0⟩, log0⟩)).2).2.st.pos = 0 := by
    rw [hl2, hp2, hsend]
  have hmin : min n output_len < 256 := lt_of_le_of_lt (Nat.min_le_left _ _) hn
  rw [transceive_unfold _ c fuel input tx_last_bits output_len _ htx, hp1]
  simp only [Bool.true_eq_false, if_false, hl1, Nat.mod_eq_of_lt hn, toSize_natCast hn,
    toSSize_small hmin, mock_drain c hc n b d hb, hpos, Nat.zero_add]
  exact ⟨_, rfl⟩

theorem transceive_on_mock_witness :
    ∃ w', rc522_transceive (mockChip mfrc522 2 (fun i => [0x04, 0x00].getD i 0) 0) mfrc522 1
        [0x26] 7 16 ⟨⟨0, none, 0⟩, []⟩
      = Outcome.returned 2 [(0, 0x04), (1, 0x00)] w' :=
  transceive_on_mock mfrc522 mfrc522_wellFormed 2 (fun i => [0x04, 0x00].getD i 0) 0 (by decide)
    (fun i => by
      rcases i with _ | _ | i
      · decide
      · decide
      · simp)
    [0x26] 7 (by decide) 16 1 (by decide) 0 none []

end RC522
